import Mathlib

/-!
Verification development for the progress-tracking subsystem of
`distributed/diagnostics.py`.

The embedding models:
* `dependent_keys` — the dependency-closure resolver (a depth-first
  traversal with an explicit work stack);
* `Progress` — the progress tracker plugin (`__init__`, `start`,
  `task_finished`, `task_erred`, `stop`);
* `key_split` and `MultiProgress` — the grouped tracker;
* `format_time` — the duration formatter.

Python dicts are modelled as association lists (`List (α × List α)`) or as
total functions defaulting to the empty value; Python sets are `Finset`;
the iterable of target keys is a `List`. Wall-clock fields of the tracker
(`_start_time`, `last_duration`, `_minimum`, `_dt`) carry no discrete
behaviour relevant to the verified claims and are omitted from the state;
`status` is `Option String` (`none` is Python's `None`, the active state),
mirroring the string constants of the source.
-/

namespace Diagnostics

variable {α : Type} [DecidableEq α]

/-- `dependencies.get(key, [])`: association-list lookup with default `[]`. -/
def depsGet (d : List (α × List α)) (k : α) : List α :=
  (((d.find? fun p => p.1 = k).map Prod.snd).getD [])

/-- All keys appearing in the value lists of the dependency dict
(used only to bound the traversal). -/
def depsVals (d : List (α × List α)) : Finset α :=
  d.foldr (fun p acc => p.2.toFinset ∪ acc) ∅

theorem depsVals_cons (p : α × List α) (d : List (α × List α)) :
    depsVals (p :: d) = p.2.toFinset ∪ depsVals d := rfl

theorem depsGet_subset_depsVals (d : List (α × List α)) (k : α) :
    (depsGet d k).toFinset ⊆ depsVals d := by
  induction d with
  | nil => simp [depsGet]
  | cons p d ih =>
    by_cases h : p.1 = k
    · have hd : depsGet (p :: d) k = p.2 := by
        unfold depsGet
        rw [List.find?_cons_of_pos _ (by simp [h])]
        rfl
      rw [hd, depsVals_cons]
      exact Finset.subset_union_left
    · have hd : depsGet (p :: d) k = depsGet d k := by
        unfold depsGet
        rw [List.find?_cons_of_neg _ (by simp [h])]
      rw [hd, depsVals_cons]
      exact ih.trans Finset.subset_union_right

/-- Satisfaction test of `dependent_keys`: the key has a non-empty `who_has`
entry, or is in `processing`, or is in `stacks`. -/
def satisfied (who_has : α → List String) (processing sts : Finset α)
    (k : α) : Prop :=
  who_has k ≠ [] ∨ k ∈ processing ∨ k ∈ sts

instance (who_has : α → List String) (processing sts : Finset α) (k : α) :
    Decidable (satisfied who_has processing sts k) := by
  unfold satisfied; infer_instance

/-- Loop body of `dependent_keys`, operating on the explicit work stack
(held top-first; Python pops from / extends at the list's end, so a
`stack.extend(deps)` puts the deps' last element on top — hence the
`.reverse ++`). `out` is the accumulated result set. -/
def depGo (who_has : α → List String) (processing sts : Finset α)
    (d : List (α × List α)) (complete : Bool) :
    List α → Finset α → Finset α
  | [], out => out
  | key :: stack, out =>
    if key ∈ out then
      depGo who_has processing sts d complete stack out
    else if complete = false ∧ satisfied who_has processing sts key then
      depGo who_has processing sts d complete stack out
    else
      depGo who_has processing sts d complete
        ((depsGet d key).reverse ++ stack) (insert key out)
  termination_by stack out => (((stack.toFinset ∪ depsVals d) \ out).card, stack.length)
  decreasing_by
  · apply Prod.Lex.right'
    · apply Finset.card_le_card
      intro x hx
      simp only [List.toFinset_cons] at *
      rw [Finset.mem_sdiff] at hx ⊢
      exact ⟨Finset.mem_union.mpr ((Finset.mem_union.mp hx.1).imp
        (fun h => Finset.mem_insert_of_mem h) id), hx.2⟩
    · simp
  · apply Prod.Lex.right'
    · apply Finset.card_le_card
      intro x hx
      simp only [List.toFinset_cons] at *
      rw [Finset.mem_sdiff] at hx ⊢
      exact ⟨Finset.mem_union.mpr ((Finset.mem_union.mp hx.1).imp
        (fun h => Finset.mem_insert_of_mem h) id), hx.2⟩
    · simp
  · apply Prod.Lex.left
    apply Finset.card_lt_card
    constructor
    · intro x hx
      simp only [List.toFinset_cons, List.toFinset_append, List.toFinset_reverse] at *
      rw [Finset.mem_sdiff] at hx ⊢
      obtain ⟨hx1, hx2⟩ := hx
      refine ⟨?_, fun hmem => hx2 (Finset.mem_insert_of_mem hmem)⟩
      rcases Finset.mem_union.mp hx1 with h | h
      · rcases Finset.mem_union.mp h with h | h
        · exact Finset.mem_union_right _ (depsGet_subset_depsVals d key h)
        · exact Finset.mem_union_left _ (Finset.mem_insert_of_mem h)
      · exact Finset.mem_union_right _ h
    · intro hsub
      have hkey : key ∈ ((key :: stack).toFinset ∪ depsVals d) \ out := by
        simp only [List.toFinset_cons]
        rw [Finset.mem_sdiff]
        exact ⟨Finset.mem_union_left _ (Finset.mem_insert_self _ _), by assumption⟩
      have := hsub hkey
      rw [Finset.mem_sdiff] at this
      exact this.2 (Finset.mem_insert_self _ _)

/-- `dependent_keys(keys, who_has, processing, stacks, dependencies,
complete=False)`: all keys that need to compute for `keys` to finish.
The Python function seeds its work stack with `list(keys)`; the target
iterable is passed here directly as a list. -/
def dependent_keys (keys : List α) (who_has : α → List String)
    (processing sts : Finset α) (d : List (α × List α))
    (complete : Bool := false) : Finset α :=
  depGo who_has processing sts d complete keys ∅

/-- One dependency step: `b` is a direct dependency of `a` in `d`. -/
def depStep (d : List (α × List α)) (a b : α) : Prop :=
  b ∈ depsGet d a

/-- `b` is reachable from `a` by following dependency edges. -/
def reaches (d : List (α × List α)) : α → α → Prop :=
  Relation.ReflTransGen (depStep d)

/-- The set of keys reachable from the target list `T` via dependencies
(including the targets themselves). -/
def reachableSet (d : List (α × List α)) (T : List α) : Set α :=
  { x | ∃ t ∈ T, reaches d t x }

theorem subset_depGo (wh : α → List String) (p s : Finset α)
    (d : List (α × List α)) (c : Bool) :
    ∀ stack out, out ⊆ depGo wh p s d c stack out := by
  intro stack out
  induction stack, out using depGo.induct wh p s d c with
  | case1 out => rw [depGo]
  | case2 key stack out h ih =>
    rw [depGo, if_pos h]
    exact ih
  | case3 key stack out h hs ih =>
    rw [depGo, if_neg h, if_pos hs]
    exact ih
  | case4 key stack out h hs ih =>
    rw [depGo, if_neg h, if_neg hs]
    exact (Finset.subset_insert _ _).trans ih

theorem mem_depGo_reaches (wh : α → List String) (p s : Finset α)
    (d : List (α × List α)) (c : Bool) :
    ∀ stack out x, x ∈ depGo wh p s d c stack out →
      x ∈ out ∨ ∃ t ∈ stack, reaches d t x := by
  intro stack out
  induction stack, out using depGo.induct wh p s d c with
  | case1 out =>
    intro x hx
    rw [depGo] at hx
    exact Or.inl hx
  | case2 key stack out h ih =>
    intro x hx
    rw [depGo, if_pos h] at hx
    rcases ih x hx with h' | ⟨t, ht, hr⟩
    · exact Or.inl h'
    · exact Or.inr ⟨t, List.mem_cons_of_mem _ ht, hr⟩
  | case3 key stack out h hs ih =>
    intro x hx
    rw [depGo, if_neg h, if_pos hs] at hx
    rcases ih x hx with h' | ⟨t, ht, hr⟩
    · exact Or.inl h'
    · exact Or.inr ⟨t, List.mem_cons_of_mem _ ht, hr⟩
  | case4 key stack out h hs ih =>
    intro x hx
    rw [depGo, if_neg h, if_neg hs] at hx
    rcases ih x hx with h' | ⟨t, ht, hr⟩
    · rcases Finset.mem_insert.mp h' with rfl | h''
      · exact Or.inr ⟨x, List.mem_cons_self _ _, Relation.ReflTransGen.refl⟩
      · exact Or.inl h''
    · rcases List.mem_append.mp ht with h'' | h''
      · exact Or.inr ⟨key, List.mem_cons_self _ _,
          Relation.ReflTransGen.head (List.mem_reverse.mp h'') hr⟩
      · exact Or.inr ⟨t, List.mem_cons_of_mem _ h'', hr⟩

theorem mem_depGo_not_satisfied (wh : α → List String) (p s : Finset α)
    (d : List (α × List α)) :
    ∀ stack out, (∀ y ∈ out, ¬satisfied wh p s y) →
      ∀ x ∈ depGo wh p s d false stack out, ¬satisfied wh p s x := by
  intro stack out
  induction stack, out using depGo.induct wh p s d false with
  | case1 out =>
    intro h0 x hx
    rw [depGo] at hx
    exact h0 x hx
  | case2 key stack out h ih =>
    intro h0 x hx
    rw [depGo, if_pos h] at hx
    exact ih h0 x hx
  | case3 key stack out h hs ih =>
    intro h0 x hx
    rw [depGo, if_neg h, if_pos hs] at hx
    exact ih h0 x hx
  | case4 key stack out h hs ih =>
    intro h0 x hx
    rw [depGo, if_neg h, if_neg hs] at hx
    refine ih ?_ x hx
    intro y hy
    rcases Finset.mem_insert.mp hy with rfl | hy'
    · exact fun hsat => hs ⟨rfl, hsat⟩
    · exact h0 y hy'

theorem stack_subset_depGo_complete (wh : α → List String) (p s : Finset α)
    (d : List (α × List α)) :
    ∀ stack out, ∀ x ∈ stack, x ∈ depGo wh p s d true stack out := by
  intro stack out
  induction stack, out using depGo.induct wh p s d true with
  | case1 out =>
    intro x hx
    exact absurd hx (List.not_mem_nil x)
  | case2 key stack out h ih =>
    intro x hx
    rw [depGo, if_pos h]
    rcases List.mem_cons.mp hx with rfl | hx'
    · exact subset_depGo wh p s d true stack out h
    · exact ih x hx'
  | case3 key stack out h hs ih =>
    exact absurd hs.1 (by simp)
  | case4 key stack out h hs ih =>
    intro x hx
    rw [depGo, if_neg h, if_neg hs]
    rcases List.mem_cons.mp hx with rfl | hx'
    · exact subset_depGo wh p s d true _ _ (Finset.mem_insert_self _ _)
    · exact ih x (List.mem_append_right _ hx')

theorem depGo_complete_closed (wh : α → List String) (p s : Finset α)
    (d : List (α × List α)) :
    ∀ stack out, ∀ k ∈ depGo wh p s d true stack out,
      k ∈ out ∨ ∀ x ∈ depsGet d k, x ∈ depGo wh p s d true stack out := by
  intro stack out
  induction stack, out using depGo.induct wh p s d true with
  | case1 out =>
    intro k hk
    rw [depGo] at hk
    exact Or.inl hk
  | case2 key stack out h ih =>
    intro k hk
    rw [depGo, if_pos h] at hk ⊢
    exact ih k hk
  | case3 key stack out h hs ih =>
    exact absurd hs.1 (by simp)
  | case4 key stack out h hs ih =>
    intro k hk
    rw [depGo, if_neg h, if_neg hs] at hk ⊢
    rcases ih k hk with hk' | hk'
    · rcases Finset.mem_insert.mp hk' with rfl | hk''
      · refine Or.inr fun x hx => ?_
        exact stack_subset_depGo_complete wh p s d _ _ x
          (List.mem_append_left _ (List.mem_reverse.mpr hx))
      · exact Or.inl hk''
    · exact Or.inr hk'

theorem depGo_complete_congr (wh wh' : α → List String) (p p' s s' : Finset α)
    (d : List (α × List α)) :
    ∀ stack out, depGo wh p s d true stack out = depGo wh' p' s' d true stack out := by
  intro stack out
  induction stack, out using depGo.induct wh p s d true with
  | case1 out =>
    rw [depGo, depGo]
  | case2 key stack out h ih =>
    rw [depGo, depGo, if_pos h, if_pos h]
    exact ih
  | case3 key stack out h hs ih =>
    exact absurd hs.1 (by simp)
  | case4 key stack out h hs ih =>
    have hs' : ¬(true = false ∧ satisfied wh' p' s' key) := by simp
    rw [depGo, depGo, if_neg h, if_neg hs, if_neg h, if_neg hs']
    exact ih

/-- With `complete=True` the resolver computes exactly the reachable set. -/
theorem dependent_keys_complete_eq_reachable (wh : α → List String)
    (p s : Finset α) (d : List (α × List α)) (T : List α) :
    ↑(dependent_keys T wh p s d true) = reachableSet d T := by
  ext x
  constructor
  · intro hx
    rcases mem_depGo_reaches wh p s d true T ∅ x hx with h | h
    · exact absurd h (Finset.not_mem_empty x)
    · exact h
  · rintro ⟨t, ht, hr⟩
    induction hr with
    | refl => exact stack_subset_depGo_complete wh p s d T ∅ t ht
    | tail hab hbc ih =>
      rcases depGo_complete_closed wh p s d T ∅ _ ih with h | h
      · exact absurd h (Finset.not_mem_empty _)
      · exact h _ hbc

/-- The scheduler state read by `Progress.__init__`: `dask` (the task
graph's key set, used by the wait loop's `keys.issubset(scheduler.dask)`),
`in_play` (used in the `"Keys not found"` message), and the four arguments
handed to `dependent_keys` — note the source passes `scheduler.waiting` in
the `dependencies` position. -/
structure Scheduler (α : Type) where
  dask : Finset α
  in_play : Finset α
  who_has : α → List String
  processing : Finset α
  «stacks» : Finset α
  waiting : List (α × List α)

/-- Mutable state of a `Progress` tracker.  `keys` is the pending set,
`all_keys` the frozen closure, `status` is Python's `self.status`
(`none` until a terminal transition), `registered` models membership in
`scheduler.diagnostics`.  The wall-clock fields (`_start_time`,
`last_duration`, `_minimum`, `_dt`) are omitted: no verified claim
mentions them. -/
structure ProgressState (α : Type) where
  keys : Finset α
  all_keys : Finset α
  status : Option String
  registered : Bool

namespace Progress

variable {α : Type} [DecidableEq α]

/-- `Progress.stop(exception=None, key=None)`: deregister from
`scheduler.diagnostics` and set the terminal status.  The `key` argument is
accepted and ignored, exactly as in the source.  `exception` is an optional
error payload; Python's truthiness test `if exception:` becomes `isSome`
(the payloads passed by the scheduler are exception objects, which are
truthy). -/
def stop (st : ProgressState α) (exception : Option String)
    (_key : Option α := none) : ProgressState α :=
  { st with
    registered := false
    status := if exception.isSome then some "error" else some "finished" }

/-- `Progress.task_finished(scheduler, key, worker, nbytes)`: discard the
key from the pending set if present; stop (successfully) once the pending
set is empty.  `worker` and `nbytes` are ignored by the source body. -/
def task_finished (st : ProgressState α) (key : α) : ProgressState α :=
  let st1 := if key ∈ st.keys then { st with keys := st.keys.erase key } else st
  if st1.keys = ∅ then stop st1 none else st1

/-- `Progress.task_erred(scheduler, key, worker, exception)`: if the key
belongs to `all_keys`, stop with the error payload; otherwise do nothing. -/
def task_erred (st : ProgressState α) (key : α) (exception : String) :
    ProgressState α :=
  if key ∈ st.all_keys then stop st (some exception) (some key) else st

/-- `Progress.__init__` against a fixed scheduler snapshot.  The source
busy-waits (10 ms steps, 1 s budget) on `keys.issubset(scheduler.dask)`;
against an unchanging scheduler this either passes at once or times out and
raises `ValueError("Keys not found: %s" % str(keys - scheduler.in_play))`,
modelled as `Except.error` carrying the named key set.  On success the
routine `f` registers the tracker (`scheduler.add_diagnostic`) and computes
`self.keys = dependent_keys(keys, who_has, processing, stacks, waiting)`
and `self.all_keys = self.keys ∪ keys`; afterwards `self.status = None`. -/
def init (keys : List α) (sch : Scheduler α) :
    Except (Finset α) (ProgressState α) :=
  if keys.toFinset ⊆ sch.dask then
    let ks := dependent_keys keys sch.who_has sch.processing sch.stacks
      sch.waiting false
    Except.ok { keys := ks, all_keys := ks ∪ keys.toFinset,
                status := none, registered := true }
  else
    Except.error (keys.toFinset \ sch.in_play)

end Progress

/-- A Python task key as seen by `key_split`: a string, a (non-empty)
tuple — whose first component drives the split and whose remaining
components are never inspected by any embedded operation, so they are
carried opaquely — or any other object (e.g. `None`), for which
`s.rsplit` raises and `key_split` answers `'Other'`. -/
inductive PKey where
  | str : String → PKey
  | tup : PKey → List String → PKey
  | other : PKey
deriving DecidableEq

/-- `s.rsplit('-', 1)[0]`: everything before the last `-`, or the whole
string when it contains no `-` (computed on the character list: scan from
the right to the first `-`). -/
def rsplitDash (s : String) : String :=
  match (s.data.reverse.dropWhile fun c => c ≠ '-') with
  | [] => s
  | _ :: rest => String.mk rest.reverse

/-- `key_split`: derive the label (family name) of a key. -/
def key_split : PKey → String
  | PKey.tup hd _ => key_split hd
  | PKey.str s => rsplitDash s
  | PKey.other => "Other"

/-- One bucket of `valmap(set, groupby(func, s))`: the keys of `s` whose
label is `l`. -/
def MultiProgress.group {α L : Type} [DecidableEq α] [DecidableEq L]
    (func : α → L) (s : Finset α) (l : L) : Finset α :=
  s.filter fun k => func k = l

/-- Domain of the `groupby(func, s)` dict: every label realised in `s`. -/
def MultiProgress.labels {α L : Type} [DecidableEq L]
    (func : α → L) (s : Finset α) : Finset L :=
  s.image func

/-- Mutable state of a `MultiProgress` tracker: the pending and all-keys
dicts are label-indexed bucket families (`keys`, `all_keys`) together with
their dict domains (`key_labels`, `all_labels`), which Python's per-bucket
`remove` never shrinks. -/
structure MultiProgressState (α L : Type) where
  func : α → L
  keys : L → Finset α
  key_labels : Finset L
  all_keys : L → Finset α
  all_labels : Finset L
  status : Option String
  registered : Bool

namespace MultiProgress

variable {α L : Type} [DecidableEq α] [DecidableEq L]

/-- `MultiProgress` inherits `Progress.stop` unchanged. -/
def stop (st : MultiProgressState α L) (exception : Option String)
    (_key : Option α := none) : MultiProgressState α L :=
  { st with
    registered := false
    status := if exception.isSome then some "error" else some "finished" }

/-- `MultiProgress.__init__`: run `Progress.__init__`, then regroup
`self.keys` and `self.all_keys` by `func` via `valmap(set, groupby(...))`. -/
def init (keys : List α) (sch : Scheduler α) (func : α → L) :
    Except (Finset α) (MultiProgressState α L) :=
  match Progress.init keys sch with
  | Except.error e => Except.error e
  | Except.ok p =>
      Except.ok { func := func
                  keys := group func p.keys
                  key_labels := labels func p.keys
                  all_keys := group func p.all_keys
                  all_labels := labels func p.all_keys
                  status := p.status
                  registered := p.registered }

/-- `MultiProgress.task_finished`: look up the key's bucket
(`self.keys.get(self.func(key))`); when the bucket exists and contains the
key (`if s and key in s`), remove it.  Stop when the dict is empty or every
bucket is (`not self.keys or not any(self.keys.values())`). -/
def task_finished (st : MultiProgressState α L) (key : α) :
    MultiProgressState α L :=
  let st1 :=
    if st.func key ∈ st.key_labels ∧ key ∈ st.keys (st.func key) then
      { st with keys := fun l =>
          if l = st.func key then (st.keys l).erase key else st.keys l }
    else st
  if st1.key_labels = ∅ ∨ ∀ l ∈ st1.key_labels, st1.keys l = ∅ then
    stop st1 none
  else st1

/-- `MultiProgress.task_erred`: stop with the error when the key's label is
a dict key of `self.all_keys` and the bucket contains the key. -/
def task_erred (st : MultiProgressState α L) (key : α) (exception : String) :
    MultiProgressState α L :=
  if st.func key ∈ st.all_labels ∧ key ∈ st.all_keys (st.func key) then
    stop st (some exception) (some key)
  else st

end MultiProgress

/-- Round-half-to-even at integer precision, as Python's float `format`
does.  The inputs appearing in the verified claims are exactly
representable and never sit on a rounding boundary, so the rational and
binary-float computations produce identical digit strings. -/
def pyRound (x : ℚ) : ℤ :=
  let f := ⌊x⌋
  if x - f < 1 / 2 then f
  else if x - f > 1 / 2 then f + 1
  else if f % 2 = 0 then f else f + 1

/-- Left-pad a string with spaces to width `w` (Python's default
right-alignment of numeric fields). -/
def padLeft (s : String) (w : ℕ) : String :=
  if s.length < w then String.mk (List.replicate (w - s.length) ' ') ++ s else s

/-- `'{:2.0f}'.format(x)`: round to an integer, render, pad to width 2. -/
def fmt2_0 (x : ℚ) : String :=
  padLeft (toString (pyRound x)) 2

/-- `'{:4.1f}'.format(x)` for the non-negative durations at hand: round to
one decimal, render as `i.d`, pad to width 4. -/
def fmt4_1 (x : ℚ) : String :=
  let n := pyRound (10 * x)
  padLeft (toString (n / 10) ++ "." ++ toString (n % 10)) 4

/-- `format_time(t)`: `m, s = divmod(t, 60); h, m = divmod(m, 60)` followed
by the three format strings, selected by the truthiness of `h` and `m`. -/
def format_time (t : ℚ) : String :=
  let m : ℤ := ⌊t / 60⌋
  let s : ℚ := t - 60 * m
  let h : ℤ := m / 60
  let m2 : ℤ := m % 60
  if h ≠ 0 then
    fmt2_0 (h : ℚ) ++ "hr " ++ fmt2_0 (m2 : ℚ) ++ "min " ++ fmt4_1 s ++ "s"
  else if m2 ≠ 0 then
    fmt2_0 (m2 : ℚ) ++ "min " ++ fmt4_1 s ++ "s"
  else
    fmt4_1 s ++ "s"

end Diagnostics

namespace Diagnostics

/-- C2: for every snapshot and every target list, `dependent_keys` with
`complete=False` contains no key that is satisfied (non-empty `who_has`
entry, or in `processing`, or in `stacks`); moreover a satisfied key popped
from the work stack is neither added to the result nor has its
dependencies expanded — the traversal continues on the remaining stack
with the accumulator unchanged. -/
theorem C2_dependent_keys_excludes_satisfied {α : Type} [DecidableEq α]
    (wh : α → List String) (p s : Finset α) (d : List (α × List α))
    (T : List α) :
    (∀ x ∈ dependent_keys T wh p s d false, ¬satisfied wh p s x) ∧
    (∀ key stack out, satisfied wh p s key →
      depGo wh p s d false (key :: stack) out = depGo wh p s d false stack out) := by
  constructor
  · exact mem_depGo_not_satisfied wh p s d T ∅
      (fun y hy => absurd hy (Finset.not_mem_empty y))
  · intro key stack out hsat
    by_cases hk : key ∈ out
    · rw [depGo, if_pos hk]
    · rw [depGo, if_neg hk, if_pos ⟨rfl, hsat⟩]

/-- Witness for C2 at a concrete snapshot: `"b"` is in `processing`, so
popping it leaves the traversal state unchanged. -/
theorem C2_dependent_keys_excludes_satisfied_witness :
    depGo (fun _ : String => []) {"b"} (∅ : Finset String)
        [("c", ["b"]), ("b", ["a"])] false ["b"] ∅ =
      depGo (fun _ : String => []) {"b"} ∅ [("c", ["b"]), ("b", ["a"])] false [] ∅ :=
  (C2_dependent_keys_excludes_satisfied (fun _ => []) {"b"} ∅
      [("c", ["b"]), ("b", ["a"])] ["c"]).2 "b" [] ∅ (Or.inr (Or.inl (by decide)))

/-- C3 counterexample: with dependencies `c → b → a`, `b` in `processing`
and target `{c}`, the pruned closure is `{c}` (the satisfied key `b` is not
expanded, so `a` is never reached), while the full closure intersected with
the reachable set is `{a, b, c}` — the claimed equation fails. -/
theorem C3_union_equation_counterexample :
    ¬(↑(dependent_keys ["c"] (fun _ : String => []) {"b"} ∅
          [("c", ["b"]), ("b", ["a"])] false ∪ (["c"] : List String).toFinset) =
      (↑(dependent_keys ["c"] (fun _ : String => []) {"b"} ∅
          [("c", ["b"]), ("b", ["a"])] true) : Set String) ∩
        reachableSet [("c", ["b"]), ("b", ["a"])] ["c"]) := by
  intro h
  have ha : ("a" : String) ∈
      (↑(dependent_keys ["c"] (fun _ : String => []) {"b"} ∅
          [("c", ["b"]), ("b", ["a"])] true) : Set String) ∩
        reachableSet [("c", ["b"]), ("b", ["a"])] ["c"] := by
    constructor
    · have : dependent_keys ["c"] (fun _ : String => []) {"b"} ∅
          [("c", ["b"]), ("b", ["a"])] true = {"a", "b", "c"} := by
        simp [dependent_keys, depGo, depsGet, satisfied, List.find?]
      rw [Finset.mem_coe, this]
      decide
    · refine ⟨"c", by decide, Relation.ReflTransGen.head (b := "b") ?_
        (Relation.ReflTransGen.single ?_)⟩
      · show ("b" : String) ∈ depsGet [("c", ["b"]), ("b", ["a"])] "c"
        decide
      · show ("a" : String) ∈ depsGet [("c", ["b"]), ("b", ["a"])] "b"
        decide
  rw [← h] at ha
  have : dependent_keys ["c"] (fun _ : String => []) {"b"} ∅
      [("c", ["b"]), ("b", ["a"])] false = {"c"} := by
    simp [dependent_keys, depGo, depsGet, satisfied, List.find?]
  rw [Finset.mem_coe, this] at ha
  revert ha
  decide

/-- C3 (amended): the equation holds only as an inclusion — for every
dependency map, snapshot and target list,
`dependent_keys(T, …, complete=False) ∪ T` is contained in
`dependent_keys(T, …, complete=True) ∩ reachable(T)`; equality can fail
because a satisfied key's dependencies are not expanded in the pruned
traversal. -/
theorem C3_union_subset {α : Type} [DecidableEq α]
    (wh : α → List String) (p s : Finset α) (d : List (α × List α))
    (T : List α) :
    ↑(dependent_keys T wh p s d false ∪ T.toFinset) ⊆
      (↑(dependent_keys T wh p s d true) : Set α) ∩ reachableSet d T := by
  intro x hx
  rw [Finset.coe_union, Set.mem_union] at hx
  have hreach : x ∈ reachableSet d T := by
    rcases hx with hx | hx
    · rcases mem_depGo_reaches wh p s d false T ∅ x hx with h | h
      · exact absurd h (Finset.not_mem_empty x)
      · exact h
    · exact ⟨x, by simpa using hx, Relation.ReflTransGen.refl⟩
  refine ⟨?_, hreach⟩
  rw [dependent_keys_complete_eq_reachable]
  exact hreach

/-- C10: the `complete=True` mode is noninterferent in `who_has`,
`processing` and `stacks` — two snapshots agreeing on the dependency map
yield the same full closure for every target list. -/
theorem C10_complete_noninterference {α : Type} [DecidableEq α]
    (wh wh' : α → List String) (p p' s s' : Finset α)
    (d : List (α × List α)) (T : List α) :
    dependent_keys T wh p s d true = dependent_keys T wh' p' s' d true :=
  depGo_complete_congr wh wh' p p' s s' d T ∅

/-- C1 counterexample: terminal statuses are not monotone.  A tracker that
is already Finished (`status = 'finished'`, empty pending set) is driven to
Errored by a `task_erred` on a key of `all_keys`, because `stop` overwrites
the status unconditionally; conversely an Errored tracker whose pending set
still holds one key is driven to Finished by the `task_finished` that
empties it. -/
theorem C1_terminal_status_counterexample :
    (Progress.task_erred
        { keys := (∅ : Finset String), all_keys := {"a"},
          status := some "finished", registered := false } "a" "boom").status
      = some "error" ∧
    (Progress.task_finished
        { keys := ({"b"} : Finset String), all_keys := {"a", "b"},
          status := some "error", registered := false } "b").status
      = some "finished" := by
  constructor
  · simp [Progress.task_erred, Progress.stop]
  · simp [Progress.task_finished, Progress.stop]

/-- C1 (amended): of the four possible terminal changes only the two
cross transitions exist — `task_finished` can never leave a Finished
tracker in any status but Finished, and `task_erred` can never leave an
Errored tracker in any status but Errored; a Finished tracker can still
become Errored via `task_erred` on a key of `all_keys`, and an Errored
tracker can become Finished via a `task_finished` that empties the pending
set (shown by the counterexample). -/
theorem C1_terminal_status_amended {α : Type} [DecidableEq α]
    (st : ProgressState α) (k : α) (e : String) :
    (st.status = some "finished" →
      (Progress.task_finished st k).status = some "finished") ∧
    (st.status = some "error" →
      (Progress.task_erred st k e).status = some "error") := by
  constructor
  · intro h
    unfold Progress.task_finished
    by_cases hk : k ∈ st.keys <;>
      simp only [hk, if_true, if_false, ite_true, ite_false] <;>
      split <;>
      simp [Progress.stop, h]
  · intro h
    unfold Progress.task_erred
    by_cases hk : k ∈ st.all_keys <;> simp [hk, Progress.stop, h]

/-- Witness for the amended C1 on a concrete Finished tracker. -/
theorem C1_terminal_status_amended_witness :
    (Progress.task_finished
        { keys := (∅ : Finset String), all_keys := {"a"},
          status := some "finished", registered := false } "a").status
      = some "finished" :=
  (C1_terminal_status_amended _ "a" "err").1 rfl

/-- C4 counterexample: `task_erred` records nothing about the failure.
Two calls on the same tracker with different erred keys (both in
`all_keys`) and different error payloads produce identical post-states, so
no field of the tracker can equal `lastErrorKey = key` or
`lastError = payload` as the claim requires. -/
theorem C4_task_erred_no_record_counterexample :
    Progress.task_erred
        { keys := ({"b", "c"} : Finset String), all_keys := {"a", "b", "c"},
          status := none, registered := true } "a" "err1" =
      Progress.task_erred
        { keys := ({"b", "c"} : Finset String), all_keys := {"a", "b", "c"},
          status := none, registered := true } "b" "err2" ∧
    ("a" : String) ≠ "b" ∧ ("err1" : String) ≠ "err2" := by
  refine ⟨?_, by decide, by decide⟩
  simp [Progress.task_erred, Progress.stop]

/-- C4 (amended): for a key in `all_keys`, `task_erred` sets the status to
Errored and deregisters the tracker but records neither the key nor the
error payload (the post-state does not depend on them); for a key outside
`all_keys` it leaves the tracker unchanged. -/
theorem C4_task_erred_amended {α : Type} [DecidableEq α]
    (st : ProgressState α) (k : α) (e : String) :
    (k ∈ st.all_keys → Progress.task_erred st k e =
      { st with status := some "error", registered := false }) ∧
    (k ∉ st.all_keys → Progress.task_erred st k e = st) := by
  constructor <;> intro h <;> simp [Progress.task_erred, Progress.stop, h]

/-- Witness for the amended C4 on a concrete erred tracker. -/
theorem C4_task_erred_amended_witness :
    Progress.task_erred
        { keys := ({"b"} : Finset String), all_keys := {"b"},
          status := none, registered := true } "b" "boom" =
      { keys := ({"b"} : Finset String), all_keys := {"b"},
        status := some "error", registered := false } :=
  (C4_task_erred_amended _ "b" "boom").1 (by decide)

/-- C5: a successfully constructed tracker has
`keys = dependent_keys(targets, …, complete=False)` and
`all_keys = keys ∪ targets`, so `keys ⊆ all_keys` and
`targets ⊆ all_keys` hold at construction; both callbacks leave `all_keys`
unchanged and preserve `keys ⊆ all_keys`. -/
theorem C5_init_invariants {α : Type} [DecidableEq α]
    (T : List α) (sch : Scheduler α) (st : ProgressState α)
    (hok : Progress.init T sch = Except.ok st) :
    st.keys = dependent_keys T sch.who_has sch.processing sch.stacks
      sch.waiting false ∧
    st.all_keys = dependent_keys T sch.who_has sch.processing sch.stacks
      sch.waiting false ∪ T.toFinset ∧
    st.keys ⊆ st.all_keys ∧ T.toFinset ⊆ st.all_keys ∧
    (∀ (st' : ProgressState α) (k : α) (e : String),
      (Progress.task_finished st' k).all_keys = st'.all_keys ∧
      (Progress.task_erred st' k e).all_keys = st'.all_keys ∧
      (st'.keys ⊆ st'.all_keys →
        (Progress.task_finished st' k).keys ⊆
          (Progress.task_finished st' k).all_keys ∧
        (Progress.task_erred st' k e).keys ⊆
          (Progress.task_erred st' k e).all_keys)) := by
  have hcb : ∀ (st' : ProgressState α) (k : α) (e : String),
      (Progress.task_finished st' k).all_keys = st'.all_keys ∧
      (Progress.task_erred st' k e).all_keys = st'.all_keys ∧
      (st'.keys ⊆ st'.all_keys →
        (Progress.task_finished st' k).keys ⊆
          (Progress.task_finished st' k).all_keys ∧
        (Progress.task_erred st' k e).keys ⊆
          (Progress.task_erred st' k e).all_keys) := by
    intro st' k e
    have hf : Progress.task_finished st' k =
        (let st1 := if k ∈ st'.keys then
          { st' with keys := st'.keys.erase k } else st'
        if st1.keys = ∅ then Progress.stop st1 none else st1) := rfl
    refine ⟨?_, ?_, fun hsub => ⟨?_, ?_⟩⟩
    · rw [hf]
      by_cases hk : k ∈ st'.keys <;>
        simp only [hk, ite_true, ite_false] <;> split <;> rfl
    · unfold Progress.task_erred
      by_cases hk : k ∈ st'.all_keys <;> simp [hk, Progress.stop]
    · rw [hf]
      by_cases hk : k ∈ st'.keys <;>
        simp only [hk, ite_true, ite_false] <;> split
      · exact (Finset.erase_subset _ _).trans hsub
      · exact (Finset.erase_subset _ _).trans hsub
      · exact hsub
      · exact hsub
    · unfold Progress.task_erred
      by_cases hk : k ∈ st'.all_keys <;> simp [hk, Progress.stop, hsub]
  unfold Progress.init at hok
  by_cases hc : T.toFinset ⊆ sch.dask
  · rw [if_pos hc] at hok
    simp only [Except.ok.injEq] at hok
    subst hok
    exact ⟨rfl, rfl, Finset.subset_union_left, Finset.subset_union_right, hcb⟩
  · rw [if_neg hc] at hok
    exact absurd hok (by simp)

/-- Witness for C5: a one-key snapshot where construction succeeds; the
constructed tracker's pending set is contained in its all-keys set. -/
theorem C5_init_invariants_witness :
    ({ keys := dependent_keys ["c"] (fun _ : String => []) ∅ ∅ [] false,
       all_keys := dependent_keys ["c"] (fun _ : String => []) ∅ ∅ [] false ∪
         (["c"] : List String).toFinset,
       status := none, registered := true } : ProgressState String).keys ⊆
      ({ keys := dependent_keys ["c"] (fun _ : String => []) ∅ ∅ [] false,
         all_keys := dependent_keys ["c"] (fun _ : String => []) ∅ ∅ [] false ∪
           (["c"] : List String).toFinset,
         status := none, registered := true } : ProgressState String).all_keys :=
  (C5_init_invariants ["c"]
    { dask := {"c"}, in_play := ∅, who_has := fun _ => [],
      processing := ∅, «stacks» := ∅, waiting := [] } _
    (by unfold Progress.init; rw [if_pos (by decide)])).2.2.1

/-- C6 counterexample: the target `"t"` is absent from the task graph
(`dask = ∅`), so construction times out and fails; but the raised
`KeysNotFound` message names `keys - scheduler.in_play`, which is empty
here because `"t"` sits in `in_play` — not the actually missing target
set `{"t"}`. -/
theorem C6_keys_not_found_counterexample :
    Progress.init ["t"]
        { dask := ∅, in_play := {"t"}, who_has := fun _ => [],
          processing := ∅, «stacks» := ∅, waiting := [] } =
      Except.error (∅ : Finset String) ∧
    (["t"] : List String).toFinset \
        ({ dask := ∅, in_play := {"t"}, who_has := fun _ => [],
           processing := ∅, «stacks» := ∅, waiting := [] } :
          Scheduler String).dask = {"t"} ∧
    ({"t"} : Finset String) ≠ (∅ : Finset String) := by
  refine ⟨?_, by decide, by decide⟩
  unfold Progress.init
  rw [if_neg (by decide)]
  congr 1

/-- C6 (amended): when the targets are not all in the scheduler's task
graph (and, the snapshot being fixed, never become so within the wait
budget), construction fails — no tracker state is produced, hence nothing
is registered as a plugin — with an error naming `keys - in_play`, the
targets absent from the scheduler's `in_play` set; this equals the set of
targets missing from the graph only when `in_play` agrees with the graph
on the targets. -/
theorem C6_keys_not_found_amended {α : Type} [DecidableEq α]
    (T : List α) (sch : Scheduler α) (h : ¬T.toFinset ⊆ sch.dask) :
    Progress.init T sch = Except.error (T.toFinset \ sch.in_play) := by
  unfold Progress.init
  rw [if_neg h]

/-- Witness for the amended C6 at a concrete scheduler with an empty task
graph. -/
theorem C6_keys_not_found_amended_witness :
    Progress.init ["t"]
        { dask := ∅, in_play := ∅, who_has := fun _ => [],
          processing := ∅, «stacks» := ∅, waiting := [] } =
      Except.error ((["t"] : List String).toFinset \ (∅ : Finset String)) :=
  C6_keys_not_found_amended ["t"] _ (by decide)

/-- C7: for every label function and every key set, the grouped tracker's
bucket family is an exhaustive, pairwise disjoint cover of the ungrouped
set — the union of the buckets over the realised labels is the whole set,
each key lies in precisely the bucket of its own label, and the per-label
cardinalities sum to the ungrouped total. -/
theorem C7_grouped_partition {α L : Type} [DecidableEq α] [DecidableEq L]
    (func : α → L) (s : Finset α) :
    (MultiProgress.labels func s).biUnion (MultiProgress.group func s) = s ∧
    (∀ l l', l ≠ l' →
      Disjoint (MultiProgress.group func s l) (MultiProgress.group func s l')) ∧
    (∀ k ∈ s, ∀ l, k ∈ MultiProgress.group func s l ↔ l = func k) ∧
    ∑ l ∈ MultiProgress.labels func s, (MultiProgress.group func s l).card
      = s.card := by
  refine ⟨?_, ?_, ?_, ?_⟩
  · ext x
    simp only [Finset.mem_biUnion, MultiProgress.labels, MultiProgress.group,
      Finset.mem_image, Finset.mem_filter]
    constructor
    · rintro ⟨l, _, hx, _⟩
      exact hx
    · intro hx
      exact ⟨func x, ⟨x, hx, rfl⟩, hx, rfl⟩
  · intro l l' hll
    rw [Finset.disjoint_left]
    intro x hx hx'
    rw [MultiProgress.group, Finset.mem_filter] at hx hx'
    exact hll (hx.2.symm.trans hx'.2)
  · intro k hk l
    rw [MultiProgress.group, Finset.mem_filter]
    constructor
    · intro h
      exact h.2.symm
    · intro h
      exact ⟨hk, h.symm⟩
  · exact (Finset.card_eq_sum_card_fiberwise fun x hx =>
      Finset.mem_image_of_mem func hx).symm

/-- Witness for C7 on a concrete two-key set with the default label
function: the `"x"` and `"y"` buckets are disjoint and single out the
right keys. -/
theorem C7_grouped_partition_witness :
    Disjoint
      (MultiProgress.group key_split {PKey.str "x-1", PKey.str "y-1"} "x")
      (MultiProgress.group key_split {PKey.str "x-1", PKey.str "y-1"} "y") ∧
    (PKey.str "x-1" ∈
      MultiProgress.group key_split {PKey.str "x-1", PKey.str "y-1"} "x" ↔
      ("x" : String) = key_split (PKey.str "x-1")) :=
  ⟨(C7_grouped_partition key_split _).2.1 "x" "y" (by decide),
   (C7_grouped_partition key_split _).2.2.1 (PKey.str "x-1") (by decide) "x"⟩

/-- C8: the grouped scenario.  With keys `{x-1, x-2, y-1}` (all pending in
the snapshot) and the default label function, construction groups them as
`{x ↦ {x-1, x-2}, y ↦ {y-1}}`; finishing `x-1` and then `x-2` empties the
`x` bucket yet leaves the tracker active (`status = None`), and only
finishing `y-1` as well drives the status to `'finished'`. -/
theorem C8_grouped_scenario :
    ∃ m0 : MultiProgressState PKey String,
      MultiProgress.init [PKey.str "x-1", PKey.str "x-2", PKey.str "y-1"]
        { dask := {PKey.str "x-1", PKey.str "x-2", PKey.str "y-1"},
          in_play := ∅, who_has := fun _ => [], processing := ∅,
          «stacks» := ∅, waiting := [] } key_split = Except.ok m0 ∧
      m0.key_labels = {"x", "y"} ∧
      m0.keys "x" = {PKey.str "x-1", PKey.str "x-2"} ∧
      m0.keys "y" = {PKey.str "y-1"} ∧
      m0.status = none ∧
      (MultiProgress.task_finished (MultiProgress.task_finished m0
          (PKey.str "x-1")) (PKey.str "x-2")).keys "x" = ∅ ∧
      (MultiProgress.task_finished (MultiProgress.task_finished m0
          (PKey.str "x-1")) (PKey.str "x-2")).status = none ∧
      (MultiProgress.task_finished (MultiProgress.task_finished
          (MultiProgress.task_finished m0 (PKey.str "x-1"))
          (PKey.str "x-2")) (PKey.str "y-1")).status = some "finished" := by
  have hP : dependent_keys [PKey.str "x-1", PKey.str "x-2", PKey.str "y-1"]
      (fun _ : PKey => []) ∅ ∅ [] false =
      {PKey.str "x-1", PKey.str "x-2", PKey.str "y-1"} := by
    simp [dependent_keys, depGo, depsGet, satisfied, List.find?]
    decide
  refine ⟨{ func := key_split,
            keys := MultiProgress.group key_split
              {PKey.str "x-1", PKey.str "x-2", PKey.str "y-1"},
            key_labels := MultiProgress.labels key_split
              {PKey.str "x-1", PKey.str "x-2", PKey.str "y-1"},
            all_keys := MultiProgress.group key_split
              ({PKey.str "x-1", PKey.str "x-2", PKey.str "y-1"} ∪
                [PKey.str "x-1", PKey.str "x-2", PKey.str "y-1"].toFinset),
            all_labels := MultiProgress.labels key_split
              ({PKey.str "x-1", PKey.str "x-2", PKey.str "y-1"} ∪
                [PKey.str "x-1", PKey.str "x-2", PKey.str "y-1"].toFinset),
            status := none, registered := true }, ?_, by decide, by decide,
          by decide, rfl, by decide, by decide, by decide⟩
  unfold MultiProgress.init Progress.init
  rw [if_pos (by decide)]
  dsimp only
  rw [hP]

/-- C9 counterexample: `format_time(3661)` does not return
`"1hr 1min  1.0s"` — the `{:2.0f}` fields right-align `h` and `m` in
width 2, producing a leading space and a double space. -/
theorem C9_format_time_counterexample :
    format_time 3661 ≠ "1hr 1min  1.0s" := by
  norm_num [format_time, fmt2_0, fmt4_1, pyRound, padLeft]
  decide

/-- C9 (amended): the first two samples hold as claimed, and
`format_time(3661)` returns `" 1hr  1min  1.0s"` (with the width-2 padding
spaces), not `"1hr 1min  1.0s"`. -/
theorem C9_format_time_values :
    format_time 10.4 = "10.4s" ∧
    format_time 1000.4 = "16min 40.4s" ∧
    format_time 3661 = " 1hr  1min  1.0s" := by
  refine ⟨?_, ?_, ?_⟩ <;>
    · norm_num [format_time, fmt2_0, fmt4_1, pyRound, padLeft]
      decide

end Diagnostics
